import Mathlib

/-!
Verification development for the DansScrap forum crawler.

The Python sources are shallowly embedded:
* `utils.py` helpers (`parse_int`, `collect_offsets`, `detect_step`,
  `next_offset`) become Lean functions over `List Char` / `Finset ℕ`.
  Python sets of ints are modelled as `Finset ℕ` (all offsets the code
  produces are nonnegative); Python string scanning (`str.split`,
  `str.replace`, `re.findall`, `re.match` on digit patterns) is
  re-implemented structurally over `String.data` so that concrete
  instances evaluate inside the kernel.
* The spider's challenge-retry controller, the board-page dedup loop and
  the post extractor (`tech_talk.py`) become state-passing functions.
* The storage pipeline's `close_spider` merge (`pipelines.py`) is
  modelled with Python dicts as association lists whose insert keeps the
  original position of an existing key (Python 3.7+ dict semantics), and
  Python's stable `sorted` as the stable `List.insertionSort`.
  Timestamp fields (`fetched_at`, `collected_at`, `updated_at`) are not
  part of the model: the specification explicitly excludes them from the
  idempotence comparison.
-/

namespace DansScrap

/-! ### Character-level string helpers -/

/-- Value of a list of decimal digit characters, most significant first:
this is what Python's `int(...)` computes on a digit string. -/
def natOfDigits (l : List Char) : ℕ :=
  l.foldl (fun n c => 10 * n + (c.toNat - 48)) 0

/-- Accumulator-based scanner producing the maximal runs of decimal digits
of a character list, in order: the embedding of `re.findall(r"\d+", s)`. -/
def digitRunsAux : List Char → List Char → List (List Char)
  | [], acc => if acc.isEmpty then [] else [acc.reverse]
  | c :: cs, acc =>
    if c.isDigit then digitRunsAux cs (c :: acc)
    else if acc.isEmpty then digitRunsAux cs []
    else acc.reverse :: digitRunsAux cs []

/-- Maximal runs of decimal digits of a character list. -/
def digitRuns (l : List Char) : List (List Char) :=
  digitRunsAux l []

/-- Characters strictly before the first occurrence of `sep`:
Python's `s.split(sep, 1)[0]`. -/
def beforeFirst (sep : Char) (l : List Char) : List Char :=
  l.takeWhile (fun c => c ≠ sep)

/-- Characters strictly after the first occurrence of `sep` (empty when
`sep` does not occur): Python's `s.split(sep, 1)[1]` when it exists. -/
def afterFirst (sep : Char) (l : List Char) : List Char :=
  (l.dropWhile (fun c => c ≠ sep)).tail

/-- Leading decimal number of a character list, when the list starts with a
digit: the embedding of `re.match(r"(\d+)", s)` followed by `int(...)`. -/
def leadingNat (l : List Char) : Option ℕ :=
  let ds := l.takeWhile Char.isDigit
  if ds.isEmpty then none else some (natOfDigits ds)

/-- Left-to-right, non-overlapping removal of every occurrence of the
pattern `pat`, with explicit fuel (call it with the length of the list):
the embedding of Python's `s.replace(pat, "")` for a nonempty pattern. -/
def removeAll (pat : List Char) : ℕ → List Char → List Char
  | 0, l => l
  | _ + 1, [] => []
  | fuel + 1, c :: cs =>
    if pat.isPrefixOf (c :: cs) && !pat.isEmpty then
      removeAll pat fuel (List.drop pat.length (c :: cs))
    else
      c :: removeAll pat fuel cs

/-- Python's `s.replace(pat, "")`. -/
def pyRemove (s pat : String) : String :=
  ⟨removeAll pat.data s.data.length s.data⟩

/-- Lexicographic comparison of character lists by code point: the order
Python uses to compare `str` values. -/
def strLeB : List Char → List Char → Bool
  | [], _ => true
  | _ :: _, [] => false
  | a :: as, b :: bs =>
    if a.toNat < b.toNat then true
    else if b.toNat < a.toNat then false
    else strLeB as bs

/-! ### `utils.py`: `parse_int` -/

/-- Embedding of `utils.parse_int`: on a falsy value (absent or empty
string) return `None`; otherwise drop commas, collect every maximal run
of digits, and when at least one run exists interpret their concatenation
as one decimal number. -/
def parse_int (value : Option String) : Option ℕ :=
  match value with
  | none => none
  | some s =>
    if s.data.isEmpty then none
    else
      let cleaned := s.data.filter (fun c => c ≠ ',')
      let digits := digitRuns cleaned
      if digits.isEmpty then none else some (natOfDigits digits.flatten)

/-! ### `utils.py`: the offset frontier -/

/-- Embedding of `utils.next_offset`: the least discovered offset strictly
above `current`, if any. -/
def next_offset (offsets : Finset ℕ) (current : ℕ) : Option ℕ :=
  let candidates := offsets.filter (fun v => current < v)
  if h : candidates.Nonempty then some (candidates.min' h) else none

/-- Body of `utils.detect_step` after the sort: take the differences of
consecutive pairs of the ordered list where the second member is larger,
keep the positive ones, and return their minimum, or `default` when
there is none.  Python's `min` on a nonempty list is a left fold of the
binary minimum over the remaining elements. -/
def detect_step_sorted (ordered : List ℕ) (default : ℕ) : ℕ :=
  let diffs := (ordered.zip ordered.tail).filterMap
    (fun p => if p.1 < p.2 then some (p.2 - p.1) else none)
  let positives := diffs.filter (fun d => 0 < d)
  match positives with
  | [] => default
  | d :: ds => ds.foldl min d

/-- Embedding of `utils.detect_step`: sort the offset set, then compute
the minimum positive consecutive difference with `default` fallback. -/
def detect_step (offsets : Finset ℕ) (default : ℕ) : ℕ :=
  detect_step_sorted (offsets.sort (fun a b => a ≤ b)) default

/-- Value list stored for a query parameter, as produced by
`urllib.parse.parse_qs`; a pagination anchor is represented by the parsed
query of its `href` (anchors without an `href`, whose query is empty, are
skipped by the code anyway since the parameter is missing). -/
def queryLookup (query : List (String × List String)) (param : String) :
    Option (List String) :=
  (query.find? (fun kv => kv.1 == param)).map (fun kv => kv.2)

/-- Offset contributed by a single pagination anchor in
`utils.collect_offsets`: require the parameter, cut the entry at the
first `;`, require a `.`, split identifier from offset at the first `.`,
require the identifier to equal `ident`, cut the offset at the first `#`,
and read its leading decimal digits. -/
def linkOffset (query : List (String × List String)) (param ident : String) :
    Option ℕ :=
  match queryLookup query param with
  | none => none
  | some [] => none
  | some (v :: _) =>
    let entry := beforeFirst ';' v.data
    if ('.' ∈ entry) then
      let currentIdent := beforeFirst '.' entry
      let offsetPart := afterFirst '.' entry
      if currentIdent = ident.data then
        leadingNat (beforeFirst '#' offsetPart)
      else none
    else none

/-- Embedding of `utils.collect_offsets`: fold the anchors, inserting the
offset each matching anchor yields, and always add `0`. -/
def collect_offsets (links : List (List (String × List String)))
    (param ident : String) : Finset ℕ :=
  insert 0 (links.foldl (fun offsets q =>
    match linkOffset q param ident with
    | some n => insert n offsets
    | none => offsets) ∅)

/-! ### `tech_talk.py`: the challenge retry controller -/

/-- `TechTalkSpider.cf_max_retries`. -/
def cf_max_retries : ℕ := 3

/-- The reissued request produced by `_retry_with_new_context`: its new
`cf_retry` meta value and the fact that it carries a fresh Playwright
context (`new_context=True`). -/
structure RetryRequest where
  cfRetry : ℕ
  newContext : Bool
  deriving DecidableEq, Repr

/-- Embedding of `TechTalkSpider._retry_with_new_context` on a challenged
response: in manual mode never retry; otherwise, when the stored retry
counter has reached `cf_max_retries`, drop the request, else reissue it
with the counter bumped and a new browsing context. -/
def retryWithNewContext (cfModeManual : Bool) (cfRetry : ℕ) :
    Option RetryRequest :=
  if cfModeManual then none
  else if cf_max_retries ≤ cfRetry then none
  else some { cfRetry := cfRetry + 1, newContext := true }

/-- Retry counters of the successive requests issued for one page that is
challenged on every attempt (auto mode), starting from a request whose
counter is `r`; the fuel only bounds the recursion. -/
def challengedAttempts : ℕ → ℕ → List ℕ
  | 0, _ => []
  | fuel + 1, r =>
    match retryWithNewContext false r with
    | none => []
    | some req => req.cfRetry :: challengedAttempts fuel req.cfRetry

/-! ### `tech_talk.py`: board-page topic dedup -/

/-- A topic row extracted from a board page, reduced to the fields the
dedup logic of `parse_board` consults. -/
structure TopicRow where
  topic_id : String
  topic_url : String
  deriving DecidableEq, Repr

/-- Result of running the topic loop of `parse_board`: the dedup set
afterwards, the ids of the `TopicSummaryItem`s yielded, and the ids
passed to `_schedule_topic`. -/
structure CrawlOutcome where
  seen : Finset String
  emitted : List String
  scheduled : List String

/-- Python truthiness guard `self.max_topics and len(self.topic_seen) >=
self.max_topics`: a `None` (or zero) cap never triggers. -/
def capReached (maxTopics : Option ℕ) (seen : Finset String) : Bool :=
  match maxTopics with
  | none => false
  | some m => !(m == 0) && decide (m ≤ seen.card)

/-- Embedding of the topic loop of `TechTalkSpider.parse_board`: skip rows
whose id is already in `topic_seen`, stop at the cap, otherwise record
the id, yield the summary and, when post fetching is on, schedule the
topic. -/
def processTopics (maxTopics : Option ℕ) (fetchPosts : Bool)
    (seen : Finset String) : List TopicRow → CrawlOutcome
  | [] => { seen := seen, emitted := [], scheduled := [] }
  | t :: ts =>
    if t.topic_id ∈ seen then
      processTopics maxTopics fetchPosts seen ts
    else if capReached maxTopics seen then
      { seen := seen, emitted := [], scheduled := [] }
    else
      let rest := processTopics maxTopics fetchPosts (insert t.topic_id seen) ts
      { seen := rest.seen,
        emitted := t.topic_id :: rest.emitted,
        scheduled := if fetchPosts then t.topic_id :: rest.scheduled else rest.scheduled }

/-- One run of the spider over successive board pages: `topic_seen` is a
spider attribute, so it threads through every call of `parse_board`. -/
def runBoardPages (maxTopics : Option ℕ) (fetchPosts : Bool)
    (seen : Finset String) : List (List TopicRow) → CrawlOutcome
  | [] => { seen := seen, emitted := [], scheduled := [] }
  | page :: pages =>
    let o := processTopics maxTopics fetchPosts seen page
    let rest := runBoardPages maxTopics fetchPosts o.seen pages
    { seen := rest.seen,
      emitted := o.emitted ++ rest.emitted,
      scheduled := o.scheduled ++ rest.scheduled }

/-! ### `tech_talk.py`: post extraction positions -/

/-- A `div.post_wrapper` element of a topic page, reduced to what decides
whether `_extract_posts` yields a post for it: the `id` attribute of its
`div.post div.inner` child (`none` when that child is missing; the
attribute itself defaults to the empty string). -/
structure PostWrapper where
  innerId : Option String
  deriving DecidableEq, Repr

/-- The characters of the tag `"msg_"`. -/
def msgTag : List Char := ['m', 's', 'g', '_']

/-- Whether `_extract_posts` yields a post for a wrapper: the inner div
exists and its id attribute starts with `"msg_"`. -/
def wrapperValid (w : PostWrapper) : Bool :=
  match w.innerId with
  | none => false
  | some attr => msgTag.isPrefixOf attr.data

/-- Embedding of the `for idx, wrapper in enumerate(wrappers)` loop of
`TechTalkSpider._extract_posts`, keeping the post id
(`post_id_attr.replace("msg_", "")`) and the emitted
`position = offset + idx + 1`; `idx` counts every wrapper, including the
ones that yield no post. -/
def extractPostsFrom (offset : ℕ) : ℕ → List PostWrapper → List (String × ℕ)
  | _, [] => []
  | idx, w :: ws =>
    match w.innerId with
    | none => extractPostsFrom offset (idx + 1) ws
    | some attr =>
      if msgTag.isPrefixOf attr.data then
        (pyRemove attr "msg_", offset + idx + 1) :: extractPostsFrom offset (idx + 1) ws
      else
        extractPostsFrom offset (idx + 1) ws

/-- `(post_id, position)` pairs extracted from one topic page at a given
starting offset. -/
def extractPosts (wrappers : List PostWrapper) (offset : ℕ) :
    List (String × ℕ) :=
  extractPostsFrom offset 0 wrappers

/-! ### `pipelines.py`: dicts, buffered records and the flush merge -/

/-- Python dict assignment `d[k] = v` on an association list: replace the
value at the first entry carrying `k` (keeping its position), or append a
new entry. -/
def dictInsert {α : Type} (k : String) (v : α) :
    List (String × α) → List (String × α)
  | [] => [(k, v)]
  | kv :: rest => if kv.1 = k then (k, v) :: rest else kv :: dictInsert k v rest

/-- Fold a list of records into a dict keyed by `key`, starting from `d`:
this is both the dict comprehension over an existing stored list and the
per-item buffering done by `process_item`. -/
def dictFold {α : Type} (key : α → String) (items : List α)
    (d : List (String × α)) : List (String × α) :=
  items.foldl (fun acc t => dictInsert (key t) t acc) d

/-- Python `d.update(e)`: fold the entries of `e` into `d` in order. -/
def dictUpdate {α : Type} (d e : List (String × α)) : List (String × α) :=
  e.foldl (fun acc kv => dictInsert kv.1 kv.2 acc) d

/-- Python `d[k]` lookup. -/
def dictLookup {α : Type} (k : String) (d : List (String × α)) : Option α :=
  (d.find? (fun kv => kv.1 == k)).map (fun kv => kv.2)

/-- Python `d.values()`. -/
def dictValues {α : Type} (d : List (String × α)) : List α :=
  d.map (fun kv => kv.2)

/-- The merge performed by `close_spider` for one file: build the dict of
the stored records, update it with the dict of the buffered records
(`stored.update(buffered)`, new data overwriting old at equal keys), and
write the values sorted by the stable sort `sorted(..., key=...)`,
modelled by the stable `List.insertionSort`. -/
def mergeByKey {α : Type} (key : α → String) (le : α → α → Bool)
    (existing buffered : List α) : List α :=
  let stored := dictFold key existing []
  let buffer := dictFold key buffered []
  (dictValues (dictUpdate stored buffer)).insertionSort (fun a b => le a b = true)

/-- A `TopicSummary` record as stored in `topics_index.json`, reduced to
its merge key, its sort key and one representative payload field. -/
structure TopicRec where
  topic_id : String
  board_offset : ℕ
  subject : String
  deriving DecidableEq, Repr

/-- Sort key `(t.get("board_offset", 0), t["topic_id"])` of the topic
index, as a boolean total preorder. -/
def topicLE (a b : TopicRec) : Bool :=
  decide (a.board_offset < b.board_offset) ||
    (a.board_offset == b.board_offset && strLeB a.topic_id.data b.topic_id.data)

/-- `close_spider`'s merge of the buffered topic summaries of a board into
the stored `topics_index.json` list. -/
def mergeTopicIndex (existing buffered : List TopicRec) : List TopicRec :=
  mergeByKey (fun t => t.topic_id) topicLE existing buffered

/-- A `Post` record as stored in `topics/<topic_id>.json`, reduced to its
merge key, its sort key and one representative payload field. -/
structure PostRec where
  post_id : String
  position : ℕ
  content : String
  deriving DecidableEq, Repr

/-- Sort key `(p.get("position", 0), p["post_id"])` of a post file. -/
def postLE (a b : PostRec) : Bool :=
  decide (a.position < b.position) ||
    (a.position == b.position && strLeB a.post_id.data b.post_id.data)

/-- `close_spider`'s merge of the buffered posts of a topic into the
stored post list. -/
def mergePosts (existing buffered : List PostRec) : List PostRec :=
  mergeByKey (fun p => p.post_id) postLE existing buffered

/-- The content of `topics_index.json` for one board, without the
`collected_at` timestamp. -/
structure TopicsIndexFile where
  board_id : String
  board_name : Option String
  topics : List TopicRec
  deriving DecidableEq

/-- The content of `topics/<topic_id>.json`, without the `updated_at`
timestamp. -/
structure PostFile where
  board_id : String
  topic_id : String
  posts_total : ℕ
  posts : List PostRec
  deriving DecidableEq

/-- The content of `board_info.json`, without the `fetched_at`
timestamp. -/
structure BoardInfoFile where
  board_id : String
  name : String
  description : String
  posts : Option ℕ
  url : String
  deriving DecidableEq

/-- The topic-index write of `close_spider`: merge into the loaded index
(a corrupt or missing file reads as empty) and rebuild the payload. -/
def flushTopicsIndex (boardId : String) (boardName : Option String)
    (existing : Option TopicsIndexFile) (buffered : List TopicRec) :
    TopicsIndexFile :=
  { board_id := boardId,
    board_name := boardName,
    topics := mergeTopicIndex ((existing.map (fun f => f.topics)).getD []) buffered }

/-- The per-topic post write of `close_spider`: merge into the loaded post
list and rebuild the payload with the running total. -/
def flushPostsFile (boardId topicId : String) (existing : Option PostFile)
    (buffered : List PostRec) : PostFile :=
  let merged := mergePosts ((existing.map (fun f => f.posts)).getD []) buffered
  { board_id := boardId,
    topic_id := topicId,
    posts_total := merged.length,
    posts := merged }

/-- The board-info write of `close_spider`: `_merge_json` with
`overwrite=True` replaces the stored payload wholesale. -/
def flushBoardInfo (_existing : Option BoardInfoFile) (latest : BoardInfoFile) :
    BoardInfoFile :=
  latest

/-! ### `tech_talk.py`: persistence of the session artifact -/

/-- A filesystem operation, at the granularity needed to talk about
atomic-replace write patterns. -/
inductive FsOp where
  | write (path : String) (contents : String)
  | replace (src dst : String)
  deriving DecidableEq, Repr

/-- Name of the session artifact inside the output directory. -/
def storageStateFileName : String := "playwright_state.json"

/-- Filesystem operations performed by `_ensure_storage_state` once a
bootstrap produced a state (`none` models a bootstrap that captured no
cookies, after which the method returns without writing): a single
direct `storage_path.write_text(json.dumps(state))` to the final path.
`_manual_playwright_bootstrap` performs the same direct write. -/
def ensureStorageStateWriteOps (baseDir : String) (state : Option String) :
    List FsOp :=
  match state with
  | none => []
  | some json => [FsOp.write (baseDir ++ "/" ++ storageStateFileName) json]

/-- The write pattern the specification requires of `Save`: write the
artifact to a distinct temporary location, then rename it over the final
path. -/
def isAtomicSave (ops : List FsOp) (finalPath : String) : Prop :=
  ∃ tmp contents, tmp ≠ finalPath ∧
    ops = [FsOp.write tmp contents, FsOp.replace tmp finalPath]

/-! ## Theorems -/

/-- C1.  `next_offset` returns the minimum element of the discovered
offset set strictly greater than the current offset, and `none` exactly
when no element is greater. -/
theorem next_offset_correct : ∀ (S : Finset ℕ) (c : ℕ),
    (∀ m, next_offset S c = some m ↔
      m ∈ S ∧ c < m ∧ ∀ x ∈ S, c < x → m ≤ x) ∧
    (next_offset S c = none ↔ ∀ x ∈ S, x ≤ c) := by
  intro S c
  by_cases h : (S.filter (fun v => c < v)).Nonempty
  · constructor
    · intro m
      rw [next_offset]
      simp only [dif_pos h, Option.some.injEq]
      constructor
      · rintro rfl
        have hmem := Finset.min'_mem (S.filter (fun v => c < v)) h
        rw [Finset.mem_filter] at hmem
        refine ⟨hmem.1, hmem.2, ?_⟩
        intro x hx hcx
        exact Finset.min'_le _ x (Finset.mem_filter.mpr ⟨hx, hcx⟩)
      · rintro ⟨hmS, hcm, hmin⟩
        have h1 : (S.filter (fun v => c < v)).min' h ≤ m :=
          Finset.min'_le _ m (Finset.mem_filter.mpr ⟨hmS, hcm⟩)
        have h2 : m ≤ (S.filter (fun v => c < v)).min' h := by
          have hmem := Finset.min'_mem (S.filter (fun v => c < v)) h
          rw [Finset.mem_filter] at hmem
          exact hmin _ hmem.1 hmem.2
        omega
    · rw [next_offset]
      simp only [dif_pos h]
      constructor
      · intro hfalse
        exact absurd hfalse (by simp)
      · intro hall
        obtain ⟨x, hx⟩ := h
        rw [Finset.mem_filter] at hx
        exact absurd (hall x hx.1) (by omega)
  · constructor
    · intro m
      rw [next_offset]
      simp only [dif_neg h]
      constructor
      · intro hfalse
        exact absurd hfalse (by simp)
      · rintro ⟨hmS, hcm, -⟩
        exact absurd ⟨m, Finset.mem_filter.mpr ⟨hmS, hcm⟩⟩ h
    · rw [next_offset]
      simp only [dif_neg h, true_iff]
      intro x hx
      by_contra hcx
      exact h ⟨x, Finset.mem_filter.mpr ⟨hx, by omega⟩⟩

/-- Witness for C1 at a concrete input. -/
theorem next_offset_correct_witness :
    next_offset ({0, 25} : Finset ℕ) 0 = some 25 :=
  ((next_offset_correct {0, 25} 0).1 25).mpr ⟨by decide, by decide, by decide⟩

/-- C2.  The challenge retry controller bumps the `cf_retry` counter while
it is below `cf_max_retries = 3` and drops the request once it has
reached it; a request challenged on every attempt is therefore reissued
with counters `1, 2, 3` and never a fourth time.  In manual mode no
automatic retry ever happens. -/
theorem cf_retry_ceiling :
    (∀ n, retryWithNewContext false n =
      if n < cf_max_retries
      then some { cfRetry := n + 1, newContext := true }
      else none) ∧
    (∀ m, retryWithNewContext true m = none) ∧
    (∀ k, challengedAttempts (k + 4) 0 = [1, 2, 3]) := by
  refine ⟨?_, ?_, ?_⟩
  · intro n
    by_cases h : n < cf_max_retries
    · rw [retryWithNewContext, if_neg Bool.false_ne_true.elim, if_neg (by omega), if_pos h]
    · rw [retryWithNewContext, if_neg Bool.false_ne_true.elim, if_pos (by omega), if_neg h]
  · intro m
    rfl
  · intro k
    rfl

/-- Witness for C2 at concrete inputs: the third retry is issued, the
fourth is refused. -/
theorem cf_retry_ceiling_witness :
    retryWithNewContext false 2 = some { cfRetry := 3, newContext := true } ∧
    retryWithNewContext false 3 = none ∧
    challengedAttempts 9 0 = [1, 2, 3] := by
  refine ⟨?_, ?_, cf_retry_ceiling.2.2 5⟩
  · have h := cf_retry_ceiling.1 2
    simpa using h
  · have h := cf_retry_ceiling.1 3
    simpa using h

/-- C9 (code evaluation).  The session artifact is persisted by a single
direct write to the final session-state path: the performed operation
list never matches the write-to-temporary-then-rename pattern the
specification requires. -/
theorem storage_state_save_not_atomic : ∀ (baseDir stateJson : String),
    ensureStorageStateWriteOps baseDir (some stateJson) =
      [FsOp.write (baseDir ++ "/" ++ storageStateFileName) stateJson] ∧
    ¬ isAtomicSave (ensureStorageStateWriteOps baseDir (some stateJson))
        (baseDir ++ "/" ++ storageStateFileName) := by
  intro baseDir stateJson
  refine ⟨rfl, ?_⟩
  rintro ⟨tmp, contents, -, heq⟩
  have hlen := congrArg List.length heq
  simp [ensureStorageStateWriteOps] at hlen

/-- Witness for C9 at a concrete input. -/
theorem storage_state_save_not_atomic_witness :
    ¬ isAtomicSave (ensureStorageStateWriteOps "output" (some "state"))
        ("output" ++ "/" ++ storageStateFileName) :=
  (storage_state_save_not_atomic "output" "state").2

theorem digitRunsAux_flatten : ∀ (l acc : List Char),
    (digitRunsAux l acc).flatten = acc.reverse ++ l.filter Char.isDigit := by
  intro l
  induction l with
  | nil =>
    intro acc
    by_cases h : acc = []
    · simp [digitRunsAux, h]
    · simp [digitRunsAux, List.isEmpty_iff, h]
  | cons c cs ih =>
    intro acc
    by_cases hd : c.isDigit
    · simp [digitRunsAux, hd, ih (c :: acc), List.filter_cons_of_pos hd]
    · by_cases h : acc = []
      · subst h
        simp [digitRunsAux, hd, ih [], List.filter_cons_of_neg hd]
      · simp [digitRunsAux, hd, List.isEmpty_iff, h, ih [],
          List.filter_cons_of_neg hd]

theorem digitRunsAux_eq_nil : ∀ (l acc : List Char),
    digitRunsAux l acc = [] ↔ acc = [] ∧ ∀ c ∈ l, c.isDigit = false := by
  intro l
  induction l with
  | nil =>
    intro acc
    by_cases h : acc = []
    · simp [digitRunsAux, h]
    · simp [digitRunsAux, List.isEmpty_iff, h]
  | cons c cs ih =>
    intro acc
    by_cases hd : c.isDigit
    · simp [digitRunsAux, hd, ih (c :: acc)]
    · have hd' : c.isDigit = false := by simpa using hd
      by_cases h : acc = []
      · subst h
        simp [digitRunsAux, hd, ih [], hd']
      · simp [digitRunsAux, hd, List.isEmpty_iff, h]

/-- A digit character is not a comma. -/
theorem isDigit_ne_comma {c : Char} (h : c.isDigit = true) : c ≠ ',' := by
  rintro rfl
  simp at h

theorem filter_digit_filter_comma (l : List Char) :
    (l.filter (fun c => decide (c ≠ ','))).filter Char.isDigit =
      l.filter Char.isDigit := by
  induction l with
  | nil => rfl
  | cons c cs ih =>
    by_cases hd : c.isDigit
    · rw [List.filter_cons_of_pos (by simp [isDigit_ne_comma hd]),
        List.filter_cons_of_pos hd, List.filter_cons_of_pos hd, ih]
    · by_cases hc : c = ','
      · rw [List.filter_cons_of_neg (by simp [hc]), List.filter_cons_of_neg hd, ih]
      · rw [List.filter_cons_of_pos (by simp [hc]), List.filter_cons_of_neg hd,
          List.filter_cons_of_neg hd, ih]

theorem digitRuns_cleaned_eq_nil (s : String) :
    digitRuns (s.data.filter (fun c => decide (c ≠ ','))) = [] ↔
      s.data.filter Char.isDigit = [] := by
  rw [digitRuns, digitRunsAux_eq_nil, ← filter_digit_filter_comma,
    List.filter_eq_nil_iff]
  simp only [true_and]
  constructor
  · intro h c hc
    simp [h c hc]
  · intro h c hc
    have := h c hc
    simpa using this

/-- The value of `parse_int` on a present string is determined by the
digit characters of the string, in order. -/
theorem parse_int_some_eq (s : String) :
    parse_int (some s) =
      if s.data.filter Char.isDigit = [] then none
      else some (natOfDigits (s.data.filter Char.isDigit)) := by
  simp only [parse_int]
  by_cases hemp : s.data = []
  · simp [hemp]
  · rw [if_neg (by simp [List.isEmpty_iff, hemp])]
    by_cases hrun : s.data.filter Char.isDigit = []
    · rw [if_pos (by
          rw [List.isEmpty_iff]
          exact (digitRuns_cleaned_eq_nil s).mpr hrun),
        if_pos hrun]
    · rw [if_neg (by
          rw [List.isEmpty_iff]
          exact fun h => hrun ((digitRuns_cleaned_eq_nil s).mp h)),
        if_neg hrun, digitRuns, digitRunsAux_flatten, List.reverse_nil,
        List.nil_append, filter_digit_filter_comma]

/-- C10.  `parse_int` merges every maximal digit run of its input (commas
removed first) into one decimal number — so `"12 Posts 3 Topics"` gives
`123`, the concatenation, not the first number — and returns `none`
exactly on an absent value or a string without any digit. -/
theorem parse_int_spec :
    (parse_int (some "12 Posts 3 Topics") = some 123 ∧
      parse_int (some "12 Posts 3 Topics") ≠ some 12) ∧
    (∀ v, parse_int v = none ↔
      (v = none ∨ ∃ s, v = some s ∧ ∀ c ∈ s.data, c.isDigit = false)) ∧
    (∀ s : String, (∃ c ∈ s.data, c.isDigit = true) →
      parse_int (some s) = some (natOfDigits (s.data.filter Char.isDigit))) := by
  refine ⟨⟨by decide, by decide⟩, ?_, ?_⟩
  · intro v
    match v with
    | none => simp [parse_int]
    | some s =>
      rw [parse_int_some_eq]
      by_cases hrun : s.data.filter Char.isDigit = []
      · rw [if_pos hrun]
        simp only [true_iff, reduceCtorEq, false_or, Option.some.injEq]
        refine ⟨s, rfl, ?_⟩
        intro c hc
        rw [List.filter_eq_nil_iff] at hrun
        simpa using hrun c hc
      · rw [if_neg hrun]
        simp only [reduceCtorEq, false_iff, false_or, not_exists, not_and]
        rintro s' h hall
        injection h with h
        subst h
        refine hrun (List.filter_eq_nil_iff.mpr ?_)
        intro c hc
        simp [hall c hc]
  · intro s hdig
    obtain ⟨c, hcs, hc⟩ := hdig
    rw [parse_int_some_eq, if_neg (by
      rw [List.filter_eq_nil_iff]
      push_neg
      exact ⟨c, hcs, by simp [hc]⟩)]

/-- Witness for C10 at concrete inputs. -/
theorem parse_int_spec_witness :
    parse_int (some "a7b") = some 7 ∧ parse_int (some "xyz") = none := by
  constructor
  · have h := parse_int_spec.2.2 "a7b" ⟨'7', by decide, by decide⟩
    rw [h]
    decide
  · exact (parse_int_spec.2.1 (some "xyz")).mpr
      (Or.inr ⟨"xyz", rfl, by decide⟩)

theorem extractPostsFrom_pos_lower : ∀ (ws : List PostWrapper) (offset idx : ℕ)
    (p : String × ℕ), p ∈ extractPostsFrom offset idx ws →
    offset + idx + 1 ≤ p.2 := by
  intro ws
  induction ws with
  | nil =>
    intro offset idx p hp
    simp [extractPostsFrom] at hp
  | cons w rest ih =>
    intro offset idx p hp
    rw [extractPostsFrom] at hp
    split at hp
    · have := ih offset (idx + 1) p hp
      omega
    · split at hp
      · rcases List.mem_cons.mp hp with rfl | h
        · simp
        · have := ih offset (idx + 1) p h
          omega
      · have := ih offset (idx + 1) p hp
        omega

theorem extractPostsFrom_strict_mono : ∀ (ws : List PostWrapper) (offset idx : ℕ),
    ((extractPostsFrom offset idx ws).map Prod.snd).Pairwise (· < ·) := by
  intro ws
  induction ws with
  | nil =>
    intro offset idx
    simp [extractPostsFrom]
  | cons w rest ih =>
    intro offset idx
    rw [extractPostsFrom]
    split
    · exact ih offset (idx + 1)
    · split
      · rw [List.map_cons, List.pairwise_cons]
        refine ⟨?_, ih offset (idx + 1)⟩
        intro n hn
        rcases List.mem_map.mp hn with ⟨p, hp, rfl⟩
        have := extractPostsFrom_pos_lower rest offset (idx + 1) p hp
        omega
      · exact ih offset (idx + 1)

theorem extractPostsFrom_all_valid : ∀ (ws : List PostWrapper) (offset idx : ℕ),
    (∀ w ∈ ws, wrapperValid w = true) →
    (extractPostsFrom offset idx ws).map Prod.snd =
      (List.range ws.length).map (fun i => offset + idx + i + 1) := by
  intro ws
  induction ws with
  | nil =>
    intro offset idx _
    simp [extractPostsFrom]
  | cons w rest ih =>
    intro offset idx hall
    have hw := hall w (List.mem_cons_self w rest)
    rw [wrapperValid] at hw
    rw [extractPostsFrom]
    split
    · next heq =>
      rw [heq] at hw
      exact absurd hw (by simp)
    · next attr heq =>
      rw [heq] at hw
      rw [if_pos hw, List.map_cons,
        ih offset (idx + 1) (fun u hu => hall u (List.mem_cons_of_mem w hu)),
        List.length_cons, List.range_succ_eq_map, List.map_cons, List.map_map]
      have hmap : List.map (fun i => offset + (idx + 1) + i + 1) (List.range rest.length) =
          List.map ((fun i => offset + idx + i + 1) ∘ Nat.succ) (List.range rest.length) := by
        apply List.map_congr_left
        intro i _
        simp only [Function.comp_apply]
        omega
      rw [hmap]

/-- C6 (amended).  Positions emitted by `_extract_posts` are strictly
increasing within a page, and when every post wrapper of the page yields
a post they are exactly `offset + 1 .. offset + n`; a skipped wrapper,
however, leaves a gap, because the position is computed from the
enumeration index of the wrapper, not from the count of posts emitted so
far. -/
theorem post_positions_amended : ∀ (wrappers : List PostWrapper) (offset : ℕ),
    ((extractPosts wrappers offset).map Prod.snd).Pairwise (· < ·) ∧
    ((∀ w ∈ wrappers, wrapperValid w = true) →
      (extractPosts wrappers offset).map Prod.snd =
        (List.range wrappers.length).map (fun i => offset + i + 1)) := by
  intro wrappers offset
  constructor
  · exact extractPostsFrom_strict_mono wrappers offset 0
  · intro hall
    rw [extractPosts, extractPostsFrom_all_valid wrappers offset 0 hall]
    apply List.map_congr_left
    intro i _
    omega

/-- C6 (counterexample to the claim as stated).  A topic page whose middle
wrapper has no inner content div yields two posts with positions `1` and
`3`: strictly increasing, but not the contiguous `1..2` the claim
promises for a page with two extracted posts at offset 0. -/
theorem post_positions_counterexample :
    (extractPosts [{ innerId := some "msg_1" }, { innerId := none },
        { innerId := some "msg_2" }] 0).map Prod.snd = [1, 3] ∧
    (extractPosts [{ innerId := some "msg_1" }, { innerId := none },
        { innerId := some "msg_2" }] 0).length = 2 ∧
    (extractPosts [{ innerId := some "msg_1" }, { innerId := none },
        { innerId := some "msg_2" }] 0).map Prod.snd ≠
      (List.range 2).map (fun i => 0 + i + 1) := by
  refine ⟨by decide, by decide, by decide⟩

/-- Witness for C6: the specification's own scenario, five posts at
offset 0 then three posts at offset 5. -/
theorem post_positions_amended_witness :
    (extractPosts [{ innerId := some "msg_5001" }, { innerId := some "msg_5002" },
        { innerId := some "msg_5003" }, { innerId := some "msg_5004" },
        { innerId := some "msg_5005" }] 0).map Prod.snd = [1, 2, 3, 4, 5] ∧
    (extractPosts [{ innerId := some "msg_5006" }, { innerId := some "msg_5007" },
        { innerId := some "msg_5008" }] 5).map Prod.snd = [6, 7, 8] := by
  constructor
  · have h := (post_positions_amended [{ innerId := some "msg_5001" },
      { innerId := some "msg_5002" }, { innerId := some "msg_5003" },
      { innerId := some "msg_5004" }, { innerId := some "msg_5005" }] 0).2 (by decide)
    rw [h]
    decide
  · have h := (post_positions_amended [{ innerId := some "msg_5006" },
      { innerId := some "msg_5007" }, { innerId := some "msg_5008" }] 5).2 (by decide)
    rw [h]
    decide

theorem processTopics_spec (maxTopics : Option ℕ) (fetchPosts : Bool) :
    ∀ (ts : List TopicRow) (seen : Finset String),
      (∀ tid ∈ (processTopics maxTopics fetchPosts seen ts).emitted, tid ∉ seen) ∧
      (processTopics maxTopics fetchPosts seen ts).emitted.Nodup ∧
      (processTopics maxTopics fetchPosts seen ts).seen =
        seen ∪ (processTopics maxTopics fetchPosts seen ts).emitted.toFinset ∧
      (processTopics maxTopics fetchPosts seen ts).scheduled.Sublist
        (processTopics maxTopics fetchPosts seen ts).emitted := by
  intro ts
  induction ts with
  | nil =>
    intro seen
    simp [processTopics]
  | cons t rest ih =>
    intro seen
    rw [processTopics]
    by_cases hseen : t.topic_id ∈ seen
    · rw [if_pos hseen]
      exact ih seen
    · rw [if_neg hseen]
      by_cases hcap : capReached maxTopics seen
      · rw [if_pos hcap]
        simp
      · rw [if_neg hcap]
        dsimp only
        obtain ⟨ih1, ih2, ih3, ih4⟩ := ih (insert t.topic_id seen)
        refine ⟨?_, ?_, ?_, ?_⟩
        · intro tid htid
          rcases List.mem_cons.mp htid with rfl | h
          · exact hseen
          · intro hmem
            exact ih1 tid h (Finset.mem_insert_of_mem hmem)
        · refine List.nodup_cons.mpr ⟨?_, ih2⟩
          intro hmem
          exact ih1 t.topic_id hmem (Finset.mem_insert_self _ _)
        · rw [List.toFinset_cons, ih3]
          rw [Finset.insert_union, Finset.union_insert]
        · by_cases hf : fetchPosts

          · rw [if_pos hf]
            exact ih4.cons₂ t.topic_id
          · rw [if_neg hf]
            exact ih4.cons t.topic_id

theorem runBoardPages_spec (maxTopics : Option ℕ) (fetchPosts : Bool) :
    ∀ (pages : List (List TopicRow)) (seen : Finset String),
      (∀ tid ∈ (runBoardPages maxTopics fetchPosts seen pages).emitted, tid ∉ seen) ∧
      (runBoardPages maxTopics fetchPosts seen pages).emitted.Nodup ∧
      (runBoardPages maxTopics fetchPosts seen pages).seen =
        seen ∪ (runBoardPages maxTopics fetchPosts seen pages).emitted.toFinset ∧
      (runBoardPages maxTopics fetchPosts seen pages).scheduled.Sublist
        (runBoardPages maxTopics fetchPosts seen pages).emitted := by
  intro pages
  induction pages with
  | nil =>
    intro seen
    simp [runBoardPages]
  | cons page rest ih =>
    intro seen
    rw [runBoardPages]
    obtain ⟨p1, p2, p3, p4⟩ := processTopics_spec maxTopics fetchPosts page seen
    obtain ⟨r1, r2, r3, r4⟩ :=
      ih (processTopics maxTopics fetchPosts seen page).seen
    refine ⟨?_, ?_, ?_, ?_⟩
    · intro tid htid
      rcases List.mem_append.mp htid with h | h
      · exact p1 tid h
      · intro hmem
        exact r1 tid h (by rw [p3]; exact Finset.mem_union_left _ hmem)
    · rw [List.nodup_append]
      refine ⟨p2, r2, ?_⟩
      intro tid htid1 htid2
      refine r1 tid htid2 ?_
      rw [p3]
      exact Finset.mem_union_right _ (List.mem_toFinset.mpr htid1)
    · rw [r3, p3, List.toFinset_append, Finset.union_assoc]
    · exact p4.append r4

/-- C3.  Within one run, every `topic_id` is scheduled for post fetching
at most once: the scheduled list has no duplicate, a topic already in
the per-run dedup set is never emitted or scheduled again (even from a
later board page), and everything scheduled was also emitted once as a
`TopicSummary`. -/
theorem topic_dedup_at_most_once : ∀ (maxTopics : Option ℕ) (fetchPosts : Bool)
    (seen : Finset String) (pages : List (List TopicRow)),
    (runBoardPages maxTopics fetchPosts seen pages).scheduled.Nodup ∧
    (runBoardPages maxTopics fetchPosts seen pages).emitted.Nodup ∧
    (∀ tid ∈ (runBoardPages maxTopics fetchPosts seen pages).scheduled,
      tid ∉ seen) ∧
    (∀ tid ∈ (runBoardPages maxTopics fetchPosts seen pages).emitted,
      tid ∉ seen) ∧
    (∀ tid ∈ (runBoardPages maxTopics fetchPosts seen pages).scheduled,
      tid ∈ (runBoardPages maxTopics fetchPosts seen pages).emitted) := by
  intro maxTopics fetchPosts seen pages
  obtain ⟨h1, h2, h3, h4⟩ := runBoardPages_spec maxTopics fetchPosts pages seen
  refine ⟨h2.sublist h4, h2, ?_, h1, ?_⟩
  · intro tid htid
    exact h1 tid (h4.mem htid)
  · intro tid htid
    exact h4.mem htid

/-- Witness for C3: the topic `"101"` reappearing on the second board
page is scheduled only once; a topic already seen before the run starts
is never scheduled. -/
theorem topic_dedup_at_most_once_witness :
    (runBoardPages none true {"7"}
      [[{ topic_id := "101", topic_url := "u1" },
        { topic_id := "102", topic_url := "u2" },
        { topic_id := "7", topic_url := "u7" }],
       [{ topic_id := "101", topic_url := "u1b" }]]).scheduled.Nodup ∧
    (∀ tid ∈ (runBoardPages none true {"7"}
      [[{ topic_id := "101", topic_url := "u1" },
        { topic_id := "102", topic_url := "u2" },
        { topic_id := "7", topic_url := "u7" }],
       [{ topic_id := "101", topic_url := "u1b" }]]).scheduled, tid ∉ ({"7"} : Finset String)) := by
  have h := topic_dedup_at_most_once none true {"7"}
    [[{ topic_id := "101", topic_url := "u1" },
      { topic_id := "102", topic_url := "u2" },
      { topic_id := "7", topic_url := "u7" }],
     [{ topic_id := "101", topic_url := "u1b" }]]
  exact ⟨h.1, h.2.2.1⟩

theorem collect_offsets_fold_mem (param ident : String) :
    ∀ (links : List (List (String × List String))) (s : Finset ℕ) (n : ℕ),
      (n ∈ links.foldl (fun offsets q =>
        match linkOffset q param ident with
        | some m => insert m offsets
        | none => offsets) s ↔
      n ∈ s ∨ ∃ q ∈ links, linkOffset q param ident = some n) := by
  intro links
  induction links with
  | nil =>
    intro s n
    simp
  | cons q rest ih =>
    intro s n
    cases hq : linkOffset q param ident with
    | none =>
      simp only [List.foldl_cons, hq]
      rw [ih s n]
      constructor
      · rintro (h | ⟨q', hq', hoff⟩)
        · exact Or.inl h
        · exact Or.inr ⟨q', List.mem_cons_of_mem q hq', hoff⟩
      · rintro (h | ⟨q', hq', hoff⟩)
        · exact Or.inl h
        · rcases List.mem_cons.mp hq' with rfl | hmem
          · rw [hq] at hoff
            exact absurd hoff (by simp)
          · exact Or.inr ⟨q', hmem, hoff⟩
    | some m =>
      simp only [List.foldl_cons, hq]
      rw [ih (insert m s) n]
      constructor
      · rintro (h | ⟨q', hq', hoff⟩)
        · rcases Finset.mem_insert.mp h with rfl | h2
          · exact Or.inr ⟨q, List.mem_cons_self q rest, hq⟩
          · exact Or.inl h2
        · exact Or.inr ⟨q', List.mem_cons_of_mem q hq', hoff⟩
      · rintro (h | ⟨q', hq', hoff⟩)
        · exact Or.inl (Finset.mem_insert_of_mem h)
        · rcases List.mem_cons.mp hq' with rfl | hmem
          · rw [hq] at hoff
            injection hoff with hoff
            subst hoff
            exact Or.inl (Finset.mem_insert_self _ _)
          · exact Or.inr ⟨q', hmem, hoff⟩

/-- C8.  `collect_offsets` always contains `0`; every other member is the
leading integer extracted from some anchor whose identifier component
equals the requested identifier, and every matching anchor's offset is
collected; with no pagination links at all the result is exactly `{0}`,
from which `next_offset` at current offset `0` returns `none`, so
traversal terminates instead of following a synthetic default step. -/
theorem collect_offsets_spec :
    (∀ links param ident, (0 : ℕ) ∈ collect_offsets links param ident) ∧
    (∀ links param ident n, n ∈ collect_offsets links param ident →
      n = 0 ∨ ∃ q ∈ links, linkOffset q param ident = some n) ∧
    (∀ links param ident q n, q ∈ links → linkOffset q param ident = some n →
      n ∈ collect_offsets links param ident) ∧
    (∀ param ident, collect_offsets [] param ident = {0}) ∧
    (∀ param ident, next_offset (collect_offsets [] param ident) 0 = none) := by
  have hempty : ∀ param ident : String, collect_offsets [] param ident = {0} := by
    intro param ident
    rfl
  refine ⟨?_, ?_, ?_, hempty, ?_⟩
  · intro links param ident
    exact Finset.mem_insert_self 0 _
  · intro links param ident n hn
    rcases Finset.mem_insert.mp hn with rfl | h
    · exact Or.inl rfl
    · exact Or.inr (((collect_offsets_fold_mem param ident links ∅ n).mp h).resolve_left
        (by simp))
  · intro links param ident q n hq hoff
    exact Finset.mem_insert_of_mem
      ((collect_offsets_fold_mem param ident links ∅ n).mpr (Or.inr ⟨q, hq, hoff⟩))
  · intro param ident
    rw [hempty]
    decide

/-- Witness for C8 at concrete inputs: a matching anchor contributes its
offset, `0` is always present, and a page without pagination links stops
traversal. -/
theorem collect_offsets_spec_witness :
    (0 : ℕ) ∈ collect_offsets [[("board", ["8.25"])]] "board" "8" ∧
    (25 : ℕ) ∈ collect_offsets [[("board", ["8.25"])]] "board" "8" ∧
    next_offset (collect_offsets [] "board" "8") 0 = none := by
  refine ⟨collect_offsets_spec.1 _ "board" "8", ?_,
    collect_offsets_spec.2.2.2.2 "board" "8"⟩
  exact collect_offsets_spec.2.2.1 _ "board" "8" [("board", ["8.25"])] 25
    (by decide) (by decide)

theorem foldl_min_le_start : ∀ (xs : List ℕ) (d : ℕ), xs.foldl min d ≤ d := by
  intro xs
  induction xs with
  | nil => intro d; exact Nat.le_refl d
  | cons x rest ih =>
    intro d
    calc rest.foldl min (min d x) ≤ min d x := ih (min d x)
    _ ≤ d := Nat.min_le_left d x

theorem foldl_min_le_mem : ∀ (xs : List ℕ) (d x : ℕ), x ∈ xs →
    xs.foldl min d ≤ x := by
  intro xs
  induction xs with
  | nil =>
    intro d x hx
    simp at hx
  | cons y rest ih =>
    intro d x hx
    rcases List.mem_cons.mp hx with rfl | hmem
    · calc rest.foldl min (min d x) ≤ min d x := foldl_min_le_start rest _
      _ ≤ x := Nat.min_le_right d x
    · exact ih (min d y) x hmem

theorem foldl_min_mem : ∀ (xs : List ℕ) (d : ℕ),
    xs.foldl min d = d ∨ xs.foldl min d ∈ xs := by
  intro xs
  induction xs with
  | nil => intro d; exact Or.inl rfl
  | cons x rest ih =>
    intro d
    rcases ih (min d x) with h | h
    · rw [List.foldl_cons, h]
      rcases Nat.le_total d x with hdx | hxd
      · exact Or.inl (Nat.min_eq_left hdx)
      · right
        rw [Nat.min_eq_right hxd]
        exact List.mem_cons_self x rest
    · right
      rw [List.foldl_cons]
      exact List.mem_cons_of_mem x h

theorem zip_tail_mem_lt : ∀ (l : List ℕ), l.Sorted (· < ·) →
    ∀ p ∈ l.zip l.tail, p.1 ∈ l ∧ p.2 ∈ l ∧ p.1 < p.2 := by
  intro l
  induction l with
  | nil =>
    intro _ p hp
    simp at hp
  | cons x rest ih =>
    intro hsor p hp
    match rest with
    | [] => simp at hp
    | y :: r =>
      rw [List.tail_cons, List.zip_cons_cons] at hp
      rcases List.mem_cons.mp hp with rfl | hmem
      · refine ⟨List.mem_cons_self x _, List.mem_cons_of_mem x (List.mem_cons_self y r), ?_⟩
        exact (List.sorted_cons.mp hsor).1 y (List.mem_cons_self y r)
      · have hres := ih (List.sorted_cons.mp hsor).2 p
          (by rw [List.tail_cons]; exact hmem)
        exact ⟨List.mem_cons_of_mem x hres.1, List.mem_cons_of_mem x hres.2.1,
          hres.2.2⟩

theorem gaps_cover : ∀ (l : List ℕ), l.Sorted (· < ·) →
    ∀ a ∈ l, ∀ b ∈ l, a < b →
    ∃ p ∈ l.zip l.tail, a ≤ p.1 ∧ p.2 ≤ b := by
  intro l
  induction l with
  | nil =>
    intro _ a ha
    simp at ha
  | cons x rest ih =>
    intro hsor a ha b hb hab
    rcases List.mem_cons.mp hb with rfl | hb'
    · rcases List.mem_cons.mp ha with rfl | ha'
      · omega
      · have := (List.sorted_cons.mp hsor).1 a ha'
        omega
    · rcases List.mem_cons.mp ha with rfl | ha'
      · match rest, hb' with
        | y :: r, hb' =>
          refine ⟨(a, y), ?_, Nat.le_refl a, ?_⟩
          · rw [List.tail_cons, List.zip_cons_cons]
            exact List.mem_cons_self _ _
          · rcases List.mem_cons.mp hb' with rfl | hb''
            · exact Nat.le_refl b
            · exact Nat.le_of_lt ((List.sorted_cons.mp
                (List.sorted_cons.mp hsor).2).1 b hb'')
      · obtain ⟨p, hp, hap, hpb⟩ := ih (List.sorted_cons.mp hsor).2 a ha' b hb' hab
        refine ⟨p, ?_, hap, hpb⟩
        match rest, hp with
        | y :: r, hp =>
          rw [List.tail_cons, List.zip_cons_cons]
          exact List.mem_cons_of_mem _ (by rw [List.tail_cons] at hp; exact hp)

theorem filterMap_gap_all : ∀ (ps : List (ℕ × ℕ)), (∀ p ∈ ps, p.1 < p.2) →
    ps.filterMap (fun p => if p.1 < p.2 then some (p.2 - p.1) else none) =
      ps.map (fun p => p.2 - p.1) := by
  intro ps
  induction ps with
  | nil => intro _; rfl
  | cons p rest ih =>
    intro hall
    rw [List.filterMap_cons, if_pos (hall p (List.mem_cons_self p rest)),
      List.map_cons, ih (fun q hq => hall q (List.mem_cons_of_mem p hq))]

theorem detect_step_sorted_spec (l : List ℕ) (hsor : l.Sorted (· < ·)) (d : ℕ) :
    (l.length ≤ 1 → detect_step_sorted l d = d) ∧
    (2 ≤ l.length →
      (∃ p ∈ l.zip l.tail, p.1 < p.2 ∧ detect_step_sorted l d = p.2 - p.1) ∧
      (∀ a ∈ l, ∀ b ∈ l, a < b → detect_step_sorted l d ≤ b - a)) := by
  have hall : ∀ p ∈ l.zip l.tail, p.1 < p.2 :=
    fun p hp => (zip_tail_mem_lt l hsor p hp).2.2
  have hd : detect_step_sorted l d =
      match (l.zip l.tail).map (fun p => p.2 - p.1) with
      | [] => d
      | d0 :: ds => ds.foldl min d0 := by
    rw [detect_step_sorted, filterMap_gap_all _ hall,
      List.filter_eq_self.mpr ?_]
    intro a ha
    rcases List.mem_map.mp ha with ⟨p, hp, rfl⟩
    have := hall p hp
    simpa using this
  constructor
  · intro hlen
    have hz : l.zip l.tail = [] := by
      match l with
      | [] => rfl
      | [x] => rfl
      | x :: y :: r => simp at hlen
    rw [hd, hz]
    rfl
  · intro hlen
    obtain ⟨x, l2, rfl⟩ : ∃ x l2, l = x :: l2 := by
      match l with
      | [] => simp at hlen
      | a :: b => exact ⟨a, b, rfl⟩
    obtain ⟨y, r, rfl⟩ : ∃ y r, l2 = y :: r := by
      match l2 with
      | [] => simp at hlen
      | a :: b => exact ⟨a, b, rfl⟩
    rw [List.tail_cons, List.zip_cons_cons, List.map_cons] at hd
    have hle_all : ∀ g ∈ (y - x) :: ((y :: r).zip ((y :: r).tail)).map
        (fun p => p.2 - p.1), detect_step_sorted (x :: y :: r) d ≤ g := by
      intro g hg
      rcases List.mem_cons.mp hg with rfl | hgm
      · rw [hd]
        exact foldl_min_le_start _ _
      · rw [hd]
        exact foldl_min_le_mem _ _ g hgm
    constructor
    · rcases foldl_min_mem (((y :: r).zip r).map (fun p => p.2 - p.1)) (y - x)
          with h | h
      · refine ⟨(x, y), ?_, ?_, ?_⟩
        · rw [List.tail_cons, List.zip_cons_cons]
          exact List.mem_cons_self _ _
        · exact hall (x, y) (by
            rw [List.tail_cons, List.zip_cons_cons]
            exact List.mem_cons_self _ _)
        · rw [hd]
          exact h
      · rcases List.mem_map.mp h with ⟨p, hp, hpe⟩
        refine ⟨p, ?_, ?_, ?_⟩
        · rw [List.tail_cons, List.zip_cons_cons]
          exact List.mem_cons_of_mem _ hp
        · exact hall p (by
            rw [List.tail_cons, List.zip_cons_cons]
            exact List.mem_cons_of_mem _ hp)
        · rw [hd]
          exact hpe.symm
    · intro a ha b hb hab
      obtain ⟨p, hp, hap, hpb⟩ := gaps_cover _ hsor a ha b hb hab
      have hplt := hall p hp
      have hm : detect_step_sorted (x :: y :: r) d ≤ p.2 - p.1 := by
        rw [List.tail_cons, List.zip_cons_cons] at hp
        rcases List.mem_cons.mp hp with heq | hmem
        · refine hle_all (p.2 - p.1) ?_
          rw [heq]
          exact List.mem_cons_self _ _
        · exact hle_all (p.2 - p.1)
            (List.mem_cons_of_mem _ (List.mem_map_of_mem _ hmem))
      omega

/-- Characterisation of `detect_step` shared by the theorems about it:
on a set with at most one element it returns the default; otherwise it
returns the difference of some pair of elements and bounds every
pairwise difference from below (so it is the minimum positive pairwise
difference, which for a strictly sorted set is attained between
consecutive elements). -/
theorem detect_step_char (S : Finset ℕ) (d : ℕ) :
    (S.card ≤ 1 → detect_step S d = d) ∧
    (2 ≤ S.card →
      (∃ a ∈ S, ∃ b ∈ S, a < b ∧ b - a = detect_step S d) ∧
      (∀ a ∈ S, ∀ b ∈ S, a < b → detect_step S d ≤ b - a)) := by
  have hsor : (S.sort (fun a b => a ≤ b)).Sorted (· < ·) :=
    Finset.sort_sorted_lt S
  have hlen : (S.sort (fun a b => a ≤ b)).length = S.card :=
    Finset.length_sort _
  obtain ⟨hs1, hs2⟩ := detect_step_sorted_spec (S.sort (fun a b => a ≤ b)) hsor d
  constructor
  · intro h
    exact hs1 (by omega)
  · intro h
    obtain ⟨⟨p, hp, hplt, heq⟩, hlb⟩ := hs2 (by omega)
    have hmem := zip_tail_mem_lt _ hsor p hp
    constructor
    · exact ⟨p.1, (Finset.mem_sort _).mp hmem.1, p.2,
        (Finset.mem_sort _).mp hmem.2.1, hplt, heq.symm⟩
    · intro a ha b hb hab
      exact hlb a ((Finset.mem_sort _).mpr ha) b ((Finset.mem_sort _).mpr hb) hab

/-- C7 (amended).  `detect_step` is the minimum positive difference
between elements of the offset set (equivalently, between consecutive
elements of the sorted set) and falls back to the supplied default when
no positive difference exists; in particular it returns `25` on the set
`{0, 25, 50}` itself and the default on `{0}`.  (The original claim's
quantification over every superset of `{0, 25, 50}` fails: a superset
can contain a smaller gap.) -/
theorem detect_step_amended :
    (∀ (S : Finset ℕ) (d : ℕ),
      (S.card ≤ 1 → detect_step S d = d) ∧
      (2 ≤ S.card →
        (∃ a ∈ S, ∃ b ∈ S, a < b ∧ b - a = detect_step S d) ∧
        (∀ a ∈ S, ∀ b ∈ S, a < b → detect_step S d ≤ b - a))) ∧
    (∀ d, detect_step {0, 25, 50} d = 25) ∧
    (∀ d, detect_step {0} d = d) := by
  refine ⟨detect_step_char, ?_, ?_⟩
  · intro d
    obtain ⟨⟨a, ha, b, hb, hab, heq⟩, hlb⟩ :=
      (detect_step_char {0, 25, 50} d).2 (by decide)
    have hub : detect_step {0, 25, 50} d ≤ 25 :=
      hlb 0 (by decide) 25 (by decide) (by decide)
    fin_cases ha <;> fin_cases hb <;> omega
  · intro d
    exact (detect_step_char {0} d).1 (by decide)

/-- C7 (counterexample to the claim as stated).  The set `{0, 5, 25, 50}`
contains `{0, 25, 50}` yet `detect_step` returns `5`, not `25`: the
claim's universal quantification over supersets is false. -/
theorem detect_step_superset_counterexample :
    ({0, 25, 50} : Finset ℕ) ⊆ ({0, 5, 25, 50} : Finset ℕ) ∧
    detect_step {0, 5, 25, 50} 25 = 5 ∧ (5 : ℕ) ≠ 25 := by
  refine ⟨by decide, ?_, by decide⟩
  obtain ⟨⟨a, ha, b, hb, hab, heq⟩, hlb⟩ :=
    (detect_step_char {0, 5, 25, 50} 25).2 (by decide)
  have hub : detect_step {0, 5, 25, 50} 25 ≤ 5 :=
    hlb 0 (by decide) 5 (by decide) (by decide)
  fin_cases ha <;> fin_cases hb <;> omega

/-- Witness for C7 at concrete inputs. -/
theorem detect_step_amended_witness :
    detect_step ({0, 25, 50} : Finset ℕ) 7 = 25 ∧
    detect_step ({0} : Finset ℕ) 99 = 99 :=
  ⟨detect_step_amended.2.1 7, detect_step_amended.2.2 99⟩

theorem strLeB_total : ∀ a b : List Char, strLeB a b = true ∨ strLeB b a = true := by
  intro a
  induction a with
  | nil =>
    intro b
    exact Or.inl rfl
  | cons x xs ih =>
    intro b
    match b with
    | [] => exact Or.inr rfl
    | y :: ys =>
      by_cases h1 : x.toNat < y.toNat
      · left
        rw [strLeB, if_pos h1]
      · by_cases h2 : y.toNat < x.toNat
        · right
          rw [strLeB, if_pos h2]
        · rcases ih ys with h | h
          · left
            rw [strLeB, if_neg h1, if_neg h2]
            exact h
          · right
            rw [strLeB, if_neg h2, if_neg h1]
            exact h

theorem strLeB_trans : ∀ a b c : List Char,
    strLeB a b = true → strLeB b c = true → strLeB a c = true := by
  intro a
  induction a with
  | nil =>
    intro b c _ _
    rfl
  | cons x xs ih =>
    intro b c hab hbc
    match b, c with
    | [], _ =>
      rw [strLeB] at hab
      exact absurd hab (by simp)
    | y :: ys, [] =>
      rw [strLeB] at hbc
      exact absurd hbc (by simp)
    | y :: ys, z :: zs =>
      rw [strLeB] at hab hbc ⊢
      by_cases hxy : x.toNat < y.toNat
      · by_cases hyz : y.toNat < z.toNat
        · rw [if_pos (by omega)]
        · by_cases hzy : z.toNat < y.toNat
          · rw [if_neg hyz, if_pos hzy] at hbc
            exact absurd hbc (by simp)
          · rw [if_pos (by omega)]
      · by_cases hyx : y.toNat < x.toNat
        · rw [if_neg hxy, if_pos hyx] at hab
          exact absurd hab (by simp)
        · by_cases hyz : y.toNat < z.toNat
          · rw [if_pos (by omega)]
          · by_cases hzy : z.toNat < y.toNat
            · rw [if_neg hyz, if_pos hzy] at hbc
              exact absurd hbc (by simp)
            · rw [if_neg hxy, if_neg hyx] at hab
              rw [if_neg hyz, if_neg hzy] at hbc
              rw [if_neg (by omega), if_neg (by omega)]
              exact ih ys zs hab hbc

theorem topicLE_total : ∀ a b : TopicRec, topicLE a b = true ∨ topicLE b a = true := by
  intro a b
  rw [topicLE, topicLE]
  rcases Nat.lt_trichotomy a.board_offset b.board_offset with h | h | h
  · left
    simp [h]
  · rcases strLeB_total a.topic_id.data b.topic_id.data with hs | hs
    · left
      simp [h, hs]
    · right
      simp [h, hs]
  · right
    simp [h]

theorem topicLE_trans : ∀ a b c : TopicRec,
    topicLE a b = true → topicLE b c = true → topicLE a c = true := by
  intro a b c hab hbc
  rw [topicLE] at hab hbc ⊢
  simp only [Bool.or_eq_true, Bool.and_eq_true, decide_eq_true_eq,
    beq_iff_eq] at hab hbc ⊢
  rcases hab with h | ⟨he, hs⟩ <;> rcases hbc with h2 | ⟨he2, hs2⟩
  · left
    omega
  · left
    omega
  · left
    omega
  · right
    exact ⟨by omega, strLeB_trans _ _ _ hs hs2⟩

theorem postLE_total : ∀ a b : PostRec, postLE a b = true ∨ postLE b a = true := by
  intro a b
  rw [postLE, postLE]
  rcases Nat.lt_trichotomy a.position b.position with h | h | h
  · left
    simp [h]
  · rcases strLeB_total a.post_id.data b.post_id.data with hs | hs
    · left
      simp [h, hs]
    · right
      simp [h, hs]
  · right
    simp [h]

theorem postLE_trans : ∀ a b c : PostRec,
    postLE a b = true → postLE b c = true → postLE a c = true := by
  intro a b c hab hbc
  rw [postLE] at hab hbc ⊢
  simp only [Bool.or_eq_true, Bool.and_eq_true, decide_eq_true_eq,
    beq_iff_eq] at hab hbc ⊢
  rcases hab with h | ⟨he, hs⟩ <;> rcases hbc with h2 | ⟨he2, hs2⟩
  · left
    omega
  · left
    omega
  · left
    omega
  · right
    exact ⟨by omega, strLeB_trans _ _ _ hs hs2⟩

theorem dictInsert_mem {α : Type} (k : String) (v : α) :
    ∀ (d : List (String × α)) (kv : String × α),
      kv ∈ dictInsert k v d → kv = (k, v) ∨ kv ∈ d := by
  intro d
  induction d with
  | nil =>
    intro kv h
    rw [dictInsert] at h
    exact Or.inl (List.mem_singleton.mp h)
  | cons hd rest ih =>
    intro kv h
    rw [dictInsert] at h
    by_cases he : hd.1 = k
    · rw [if_pos he] at h
      rcases List.mem_cons.mp h with rfl | hm
      · exact Or.inl rfl
      · exact Or.inr (List.mem_cons_of_mem hd hm)
    · rw [if_neg he] at h
      rcases List.mem_cons.mp h with rfl | hm
      · exact Or.inr (List.mem_cons_self _ _)
      · rcases ih kv hm with h1 | h1
        · exact Or.inl h1
        · exact Or.inr (List.mem_cons_of_mem hd h1)

theorem dictInsert_keys_of_mem {α : Type} (k : String) (v : α) :
    ∀ d : List (String × α), k ∈ d.map Prod.fst →
      (dictInsert k v d).map Prod.fst = d.map Prod.fst := by
  intro d
  induction d with
  | nil =>
    intro h
    simp at h
  | cons hd rest ih =>
    intro h
    rw [List.map_cons, List.mem_cons] at h
    rw [dictInsert]
    by_cases he : hd.1 = k
    · rw [if_pos he]
      simp [he]
    · rw [if_neg he]
      rw [List.map_cons, List.map_cons,
        ih (h.resolve_left (fun h1 => he h1.symm))]

theorem dictInsert_of_not_mem {α : Type} (k : String) (v : α) :
    ∀ d : List (String × α), k ∉ d.map Prod.fst →
      dictInsert k v d = d ++ [(k, v)] := by
  intro d
  induction d with
  | nil =>
    intro _
    rfl
  | cons hd rest ih =>
    intro h
    rw [List.map_cons, List.mem_cons] at h
    push_neg at h
    rw [dictInsert, if_neg (fun he => h.1 he.symm), ih h.2]
    rfl

theorem dictInsert_keys_iff {α : Type} (k : String) (v : α)
    (d : List (String × α)) (x : String) :
    (x ∈ (dictInsert k v d).map Prod.fst ↔ x = k ∨ x ∈ d.map Prod.fst) := by
  by_cases h : k ∈ d.map Prod.fst
  · rw [dictInsert_keys_of_mem k v d h]
    constructor
    · exact Or.inr
    · rintro (rfl | hx)
      · exact h
      · exact hx
  · rw [dictInsert_of_not_mem k v d h, List.map_append]
    simp [List.mem_append, or_comm]

theorem dictInsert_keys_nodup {α : Type} (k : String) (v : α)
    (d : List (String × α)) (hnd : (d.map Prod.fst).Nodup) :
    ((dictInsert k v d).map Prod.fst).Nodup := by
  by_cases h : k ∈ d.map Prod.fst
  · rw [dictInsert_keys_of_mem k v d h]
    exact hnd
  · rw [dictInsert_of_not_mem k v d h, List.map_append]
    simp [List.nodup_append, hnd, h]

theorem dictLookup_dictInsert {α : Type} (k k' : String) (v : α) :
    ∀ d : List (String × α),
      dictLookup k' (dictInsert k v d) =
        if k = k' then some v else dictLookup k' d := by
  intro d
  induction d with
  | nil =>
    by_cases h : k = k'
    · simp [dictInsert, dictLookup, h]
    · simp [dictInsert, dictLookup, h]
  | cons hd rest ih =>
    by_cases h : hd.1 = k
    · by_cases h2 : k = k'
      · simp [dictInsert, dictLookup, h, h2]
      · have h3 : ¬(hd.1 = k') := by
          rw [h]
          exact h2
        simp [dictInsert, dictLookup, h, h2, h3]
    · rw [dictInsert, if_neg h]
      by_cases h3 : hd.1 = k'
      · have h4 : ¬(k = k') := by
          intro he
          exact h (by rw [he, h3])
        simp [dictLookup, h3, h4]
      · have hstep : dictLookup k' (hd :: dictInsert k v rest) =
            dictLookup k' (dictInsert k v rest) := by
          rw [dictLookup, dictLookup, List.find?_cons_of_neg _ (by simp [h3])]
        have hstep2 : dictLookup k' (hd :: rest) = dictLookup k' rest := by
          rw [dictLookup, dictLookup, List.find?_cons_of_neg _ (by simp [h3])]
        rw [hstep, ih, hstep2]

theorem dictLookup_dictFold {α : Type} (key : α → String) (k : String) :
    ∀ (items : List α) (d : List (String × α)),
      dictLookup k (dictFold key items d) =
        (items.reverse.find? (fun t => key t == k)).or (dictLookup k d) := by
  intro items
  induction items with
  | nil =>
    intro d
    simp [dictFold]
  | cons t ts ih =>
    intro d
    rw [dictFold, List.foldl_cons]
    have hstep := ih (dictInsert (key t) t d)
    rw [dictFold] at hstep
    rw [hstep, dictLookup_dictInsert, List.reverse_cons, List.find?_append]
    cases hf : ts.reverse.find? (fun t => key t == k) with
    | some u => simp
    | none =>
      simp only [Option.none_or]
      by_cases hk : key t = k
      · simp [List.find?_cons, hk]
      · simp [List.find?_cons, hk]

theorem dictLookup_dictUpdate {α : Type} (k : String) :
    ∀ (e d : List (String × α)),
      dictLookup k (dictUpdate d e) =
        ((e.reverse.find? (fun kv => kv.1 == k)).map Prod.snd).or
          (dictLookup k d) := by
  intro e
  induction e with
  | nil =>
    intro d
    simp [dictUpdate]
  | cons kv0 e2 ih =>
    intro d
    rw [dictUpdate, List.foldl_cons]
    have hstep := ih (dictInsert kv0.1 kv0.2 d)
    rw [dictUpdate] at hstep
    rw [hstep, dictLookup_dictInsert, List.reverse_cons, List.find?_append]
    cases hf : e2.reverse.find? (fun kv => kv.1 == k) with
    | some u => simp
    | none =>
      simp only [Option.none_or]
      by_cases hk : kv0.1 = k
      · simp [List.find?_cons, hk]
      · simp [List.find?_cons, hk]

theorem dictFold_tagged {α : Type} (key : α → String) :
    ∀ (items : List α) (d : List (String × α)),
      (∀ kv ∈ d, key kv.2 = kv.1) →
      ∀ kv ∈ dictFold key items d, key kv.2 = kv.1 := by
  intro items
  induction items with
  | nil =>
    intro d hd kv hkv
    exact hd kv hkv
  | cons t ts ih =>
    intro d hd kv hkv
    rw [dictFold, List.foldl_cons] at hkv
    refine ih (dictInsert (key t) t d) ?_ kv hkv
    intro kv2 hkv2
    rcases dictInsert_mem (key t) t d kv2 hkv2 with rfl | h
    · rfl
    · exact hd kv2 h

theorem dictFold_keys_nodup {α : Type} (key : α → String) :
    ∀ (items : List α) (d : List (String × α)),
      (d.map Prod.fst).Nodup → ((dictFold key items d).map Prod.fst).Nodup := by
  intro items
  induction items with
  | nil =>
    intro d hd
    exact hd
  | cons t ts ih =>
    intro d hd
    rw [dictFold, List.foldl_cons]
    exact ih (dictInsert (key t) t d) (dictInsert_keys_nodup _ _ _ hd)

theorem dictFold_keys_iff {α : Type} (key : α → String) :
    ∀ (items : List α) (d : List (String × α)) (x : String),
      (x ∈ (dictFold key items d).map Prod.fst ↔
        x ∈ d.map Prod.fst ∨ x ∈ items.map key) := by
  intro items
  induction items with
  | nil =>
    intro d x
    simp [dictFold]
  | cons t ts ih =>
    intro d x
    rw [dictFold, List.foldl_cons]
    have := ih (dictInsert (key t) t d) x
    rw [dictFold] at this
    rw [this, dictInsert_keys_iff]
    simp only [List.map_cons, List.mem_cons]
    constructor
    · rintro ((rfl | h) | h)
      · exact Or.inr (Or.inl rfl)
      · exact Or.inl h
      · exact Or.inr (Or.inr h)
    · rintro (h | (rfl | h))
      · exact Or.inl (Or.inr h)
      · exact Or.inl (Or.inl rfl)
      · exact Or.inr h

theorem dictUpdate_tagged {α : Type} (key : α → String) :
    ∀ (e d : List (String × α)),
      (∀ kv ∈ d, key kv.2 = kv.1) → (∀ kv ∈ e, key kv.2 = kv.1) →
      ∀ kv ∈ dictUpdate d e, key kv.2 = kv.1 := by
  intro e
  induction e with
  | nil =>
    intro d hd _ kv hkv
    exact hd kv hkv
  | cons kv0 e2 ih =>
    intro d hd he kv hkv
    rw [dictUpdate, List.foldl_cons] at hkv
    refine ih (dictInsert kv0.1 kv0.2 d) ?_
      (fun kv2 hkv2 => he kv2 (List.mem_cons_of_mem kv0 hkv2)) kv hkv
    intro kv2 hkv2
    rcases dictInsert_mem kv0.1 kv0.2 d kv2 hkv2 with rfl | h
    · exact he kv0 (List.mem_cons_self _ _)
    · exact hd kv2 h

theorem dictUpdate_keys_nodup {α : Type} :
    ∀ (e d : List (String × α)),
      (d.map Prod.fst).Nodup → ((dictUpdate d e).map Prod.fst).Nodup := by
  intro e
  induction e with
  | nil =>
    intro d hd
    exact hd
  | cons kv0 e2 ih =>
    intro d hd
    rw [dictUpdate, List.foldl_cons]
    exact ih (dictInsert kv0.1 kv0.2 d) (dictInsert_keys_nodup _ _ _ hd)

theorem key_unique {α : Type} :
    ∀ (d : List (String × α)), (d.map Prod.fst).Nodup →
      ∀ kv ∈ d, ∀ kv2 ∈ d, kv.1 = kv2.1 → kv = kv2 := by
  intro d
  induction d with
  | nil =>
    intro _ kv hkv
    simp at hkv
  | cons hd rest ih =>
    intro hnd kv hkv kv2 hkv2 heq
    rw [List.map_cons] at hnd
    have hnd2 := List.nodup_cons.mp hnd
    rcases List.mem_cons.mp hkv with rfl | h1 <;>
      rcases List.mem_cons.mp hkv2 with rfl | h2
    · rfl
    · exact absurd (by rw [heq]; exact List.mem_map_of_mem Prod.fst h2) hnd2.1
    · exact absurd (by rw [← heq]; exact List.mem_map_of_mem Prod.fst h1) hnd2.1
    · exact ih hnd2.2 kv h1 kv2 h2 heq

theorem find_first_of_nodup {α : Type} :
    ∀ (d : List (String × α)) (kv : String × α),
      (d.map Prod.fst).Nodup → kv ∈ d →
      d.find? (fun kv2 => kv2.1 == kv.1) = some kv := by
  intro d
  induction d with
  | nil =>
    intro kv _ hkv
    simp at hkv
  | cons hd rest ih =>
    intro kv hnd hkv
    rw [List.map_cons] at hnd
    have hnd2 := List.nodup_cons.mp hnd
    rcases List.mem_cons.mp hkv with rfl | h1
    · rw [List.find?_cons_of_pos _ (by simp)]
    · rw [List.find?_cons_of_neg _ ?_, ih kv hnd2.2 h1]
      simp only [beq_iff_eq]
      intro he
      exact hnd2.1 (by rw [he]; exact List.mem_map_of_mem Prod.fst h1)

theorem mem_values_iff_lookup {α : Type} (key : α → String)
    (d : List (String × α)) (hnd : (d.map Prod.fst).Nodup)
    (htag : ∀ kv ∈ d, key kv.2 = kv.1) (v : α) :
    (v ∈ dictValues d ↔ dictLookup (key v) d = some v) := by
  constructor
  · intro hv
    rcases List.mem_map.mp hv with ⟨kv, hkv, rfl⟩
    rw [dictLookup, show key kv.2 = kv.1 from htag kv hkv,
      find_first_of_nodup d kv hnd hkv]
    rfl
  · intro hv
    rw [dictLookup] at hv
    cases hf : d.find? (fun kv => kv.1 == key v) with
    | none =>
      rw [hf] at hv
      exact Option.noConfusion hv
    | some kv =>
      rw [hf] at hv
      injection hv with hv
      have hmem := List.mem_of_find?_eq_some hf
      rw [← hv]
      exact List.mem_map_of_mem Prod.snd hmem

theorem reverse_find_keytest {α : Type} (k : String) :
    ∀ (e : List (String × α)), (e.map Prod.fst).Nodup →
      e.reverse.find? (fun kv => kv.1 == k) =
        e.find? (fun kv => kv.1 == k) := by
  intro e hnd
  cases hf : e.find? (fun kv => kv.1 == k) with
  | none =>
    rw [List.find?_eq_none] at hf ⊢
    intro kv hkv
    exact hf kv (List.mem_reverse.mp hkv)
  | some kv =>
    have hkv := List.mem_of_find?_eq_some hf
    have hkey : kv.1 = k := by
      have := List.find?_some hf
      simpa using this
    cases hf2 : e.reverse.find? (fun kv2 => kv2.1 == k) with
    | none =>
      rw [List.find?_eq_none] at hf2
      exact absurd (by simpa using hkey) (hf2 kv (List.mem_reverse.mpr hkv))
    | some kv2 =>
      have hkv2 := List.mem_reverse.mp (List.mem_of_find?_eq_some hf2)
      have hkey2 : kv2.1 = k := by
        have := List.find?_some hf2
        simpa using this
      rw [key_unique e hnd kv2 hkv2 kv hkv (by rw [hkey2, hkey])]

theorem dictInsert_override {α : Type} (k : String) (v : α) :
    ∀ d : List (String × α), (d.map Prod.fst).Nodup → k ∈ d.map Prod.fst →
      dictInsert k v d = d.map (fun kv => if kv.1 = k then (kv.1, v) else kv) := by
  intro d
  induction d with
  | nil =>
    intro _ h
    simp at h
  | cons hd rest ih =>
    intro hnd hk
    rw [List.map_cons] at hnd
    have hnd2 := List.nodup_cons.mp hnd
    rw [dictInsert, List.map_cons]
    by_cases he : hd.1 = k
    · rw [if_pos he, if_pos he]
      have hrest : rest.map (fun kv => if kv.1 = k then (kv.1, v) else kv) = rest := by
        have : rest.map (fun kv => if kv.1 = k then (kv.1, v) else kv) =
            rest.map (fun kv => kv) := by
          apply List.map_congr_left
          intro kv hkv
          rw [if_neg ?_]
          intro heq
          exact hnd2.1 (by rw [he, ← heq]; exact List.mem_map_of_mem Prod.fst hkv)
        rw [this]
        simp
      rw [hrest]
      exact congrArg (fun x => x :: rest) (by rw [he])
    · rw [if_neg he, if_neg he]
      rw [List.map_cons, List.mem_cons] at hk
      rw [ih hnd2.2 (hk.resolve_left (fun h1 => he h1.symm))]

theorem dictUpdate_override {α : Type} :
    ∀ (e d : List (String × α)), (d.map Prod.fst).Nodup →
      (∀ kv ∈ e, kv.1 ∈ d.map Prod.fst) →
      dictUpdate d e = d.map (fun kv =>
        match e.reverse.find? (fun kv2 => kv2.1 == kv.1) with
        | some kv2 => (kv.1, kv2.2)
        | none => kv) := by
  intro e
  induction e with
  | nil =>
    intro d _ _
    rw [dictUpdate]
    simp
  | cons kv0 e2 ih =>
    intro d hnd hcov
    have hk0 : kv0.1 ∈ d.map Prod.fst := hcov kv0 (List.mem_cons_self _ _)
    rw [dictUpdate, List.foldl_cons]
    have hins := dictInsert_override kv0.1 kv0.2 d hnd hk0
    have hkeys : (dictInsert kv0.1 kv0.2 d).map Prod.fst = d.map Prod.fst := by
      rw [hins, List.map_map]
      apply List.map_congr_left
      intro kv _
      by_cases h : kv.1 = kv0.1
      · simp [h]
      · simp [h]
    have hstep := ih (dictInsert kv0.1 kv0.2 d)
      (by rw [hkeys]; exact hnd)
      (by
        intro kv hkv
        rw [hkeys]
        exact hcov kv (List.mem_cons_of_mem kv0 hkv))
    rw [dictUpdate] at hstep
    rw [hstep, hins, List.map_map]
    apply List.map_congr_left
    intro kv _
    simp only [Function.comp_apply]
    rw [List.reverse_cons, List.find?_append]
    by_cases h : kv.1 = kv0.1
    · rw [if_pos h]
      cases hf : e2.reverse.find? (fun kv2 => kv2.1 == kv.1) with
      | some kv2 => simp
      | none =>
        simp only [Option.none_or]
        rw [List.find?_cons_of_pos _ (by simp [h])]
    · rw [if_neg h]
      cases hf : e2.reverse.find? (fun kv2 => kv2.1 == kv.1) with
      | some kv2 => simp
      | none =>
        simp only [Option.none_or]
        rw [List.find?_cons_of_neg _ (by simp; exact fun he => h he.symm)]
        simp

theorem dictFold_fresh {α : Type} (key : α → String) :
    ∀ (l : List α) (d : List (String × α)), (l.map key).Nodup →
      (∀ t ∈ l, key t ∉ d.map Prod.fst) →
      dictFold key l d = d ++ l.map (fun t => (key t, t)) := by
  intro l
  induction l with
  | nil =>
    intro d _ _
    rw [dictFold]
    simp
  | cons t ts ih =>
    intro d hnd hdis
    rw [List.map_cons] at hnd
    have hnd2 := List.nodup_cons.mp hnd
    rw [dictFold, List.foldl_cons]
    have hins := dictInsert_of_not_mem (key t) t d
      (hdis t (List.mem_cons_self _ _))
    rw [hins] at *
    have hstep := ih (d ++ [(key t, t)]) hnd2.2 ?_
    · rw [dictFold] at hstep
      rw [hstep, List.map_cons, List.append_assoc]
      rfl
    · intro u hu
      rw [List.map_append, List.mem_append]
      rintro (h | h)
      · exact hdis u (List.mem_cons_of_mem t hu) h
      · simp only [List.map_cons, List.map_nil, List.mem_singleton] at h
        exact hnd2.1 (h ▸ List.mem_map_of_mem key hu)

theorem dictUpdate_keys_iff {α : Type} :
    ∀ (e d : List (String × α)) (x : String),
      (x ∈ (dictUpdate d e).map Prod.fst ↔
        x ∈ d.map Prod.fst ∨ x ∈ e.map Prod.fst) := by
  intro e
  induction e with
  | nil =>
    intro d x
    simp [dictUpdate]
  | cons kv0 e2 ih =>
    intro d x
    rw [dictUpdate, List.foldl_cons]
    have := ih (dictInsert kv0.1 kv0.2 d) x
    rw [dictUpdate] at this
    rw [this, dictInsert_keys_iff]
    simp only [List.map_cons, List.mem_cons]
    constructor
    · rintro ((rfl | h) | h)
      · exact Or.inr (Or.inl rfl)
      · exact Or.inl h
      · exact Or.inr (Or.inr h)
    · rintro (h | (rfl | h))
      · exact Or.inl (Or.inr h)
      · exact Or.inl (Or.inl rfl)
      · exact Or.inr h

theorem dict_merge_lookup {α : Type} (key : α → String) (k : String)
    (ex buf : List α) :
    dictLookup k (dictUpdate (dictFold key ex []) (dictFold key buf [])) =
      (ex ++ buf).reverse.find? (fun u => key u == k) := by
  rw [dictLookup_dictUpdate,
    reverse_find_keytest k _ (dictFold_keys_nodup key buf [] List.nodup_nil)]
  have hbuf : ((dictFold key buf []).find? (fun kv => kv.1 == k)).map Prod.snd =
      dictLookup k (dictFold key buf []) := rfl
  rw [hbuf, dictLookup_dictFold, dictLookup_dictFold]
  have hnil : dictLookup k ([] : List (String × α)) = none := rfl
  rw [hnil, Option.or_none, Option.or_none, List.reverse_append,
    List.find?_append]

theorem mergeByKey_sorted {α : Type} (key : α → String) (le : α → α → Bool)
    (htrans : ∀ a b c, le a b = true → le b c = true → le a c = true)
    (htotal : ∀ a b, le a b = true ∨ le b a = true)
    (ex buf : List α) :
    (mergeByKey key le ex buf).Pairwise (fun a b => le a b = true) := by
  letI : IsTotal α (fun a b => le a b = true) := ⟨htotal⟩
  letI : IsTrans α (fun a b => le a b = true) := ⟨htrans⟩
  exact List.sorted_insertionSort _ _

theorem mergeByKey_mem {α : Type} (key : α → String) (le : α → α → Bool)
    (ex buf : List α) (t : α) :
    (t ∈ mergeByKey key le ex buf ↔
      (ex ++ buf).reverse.find? (fun u => key u == key t) = some t) := by
  have htagD : ∀ kv ∈ dictUpdate (dictFold key ex []) (dictFold key buf []),
      key kv.2 = kv.1 :=
    dictUpdate_tagged key _ _
      (dictFold_tagged key ex [] (fun kv hkv => absurd hkv (List.not_mem_nil kv)))
      (dictFold_tagged key buf [] (fun kv hkv => absurd hkv (List.not_mem_nil kv)))
  have hndD : ((dictUpdate (dictFold key ex [])
      (dictFold key buf [])).map Prod.fst).Nodup :=
    dictUpdate_keys_nodup _ _ (dictFold_keys_nodup key ex [] List.nodup_nil)
  have hperm : List.Perm (mergeByKey key le ex buf)
      (dictValues (dictUpdate (dictFold key ex []) (dictFold key buf []))) :=
    List.perm_insertionSort _ _
  rw [hperm.mem_iff, mem_values_iff_lookup key _ hndD htagD t, dict_merge_lookup]

theorem mergeByKey_idem {α : Type} (key : α → String) (le : α → α → Bool)
    (htrans : ∀ a b c, le a b = true → le b c = true → le a c = true)
    (htotal : ∀ a b, le a b = true ∨ le b a = true)
    (ex buf : List α) :
    mergeByKey key le (mergeByKey key le ex buf) buf =
      mergeByKey key le ex buf := by
  have htagD : ∀ kv ∈ dictUpdate (dictFold key ex []) (dictFold key buf []),
      key kv.2 = kv.1 :=
    dictUpdate_tagged key _ _
      (dictFold_tagged key ex [] (fun kv hkv => absurd hkv (List.not_mem_nil kv)))
      (dictFold_tagged key buf [] (fun kv hkv => absurd hkv (List.not_mem_nil kv)))
  have hndD : ((dictUpdate (dictFold key ex [])
      (dictFold key buf [])).map Prod.fst).Nodup :=
    dictUpdate_keys_nodup _ _ (dictFold_keys_nodup key ex [] List.nodup_nil)
  have hperm : List.Perm (mergeByKey key le ex buf)
      (dictValues (dictUpdate (dictFold key ex []) (dictFold key buf []))) :=
    List.perm_insertionSort _ _
  have hsort : (mergeByKey key le ex buf).Pairwise (fun a b => le a b = true) :=
    mergeByKey_sorted key le htrans htotal ex buf
  have hkeymap : (dictValues (dictUpdate (dictFold key ex [])
      (dictFold key buf []))).map key =
      (dictUpdate (dictFold key ex []) (dictFold key buf [])).map Prod.fst := by
    rw [dictValues, List.map_map]
    exact List.map_congr_left (fun kv hkv => htagD kv hkv)
  have hpkeys : List.Perm ((mergeByKey key le ex buf).map key)
      ((dictUpdate (dictFold key ex []) (dictFold key buf [])).map Prod.fst) := by
    rw [← hkeymap]
    exact hperm.map key
  have hndout : ((mergeByKey key le ex buf).map key).Nodup :=
    hpkeys.nodup_iff.mpr hndD
  have htagkeys : ((mergeByKey key le ex buf).map
      (fun t => (key t, t))).map Prod.fst = (mergeByKey key le ex buf).map key := by
    rw [List.map_map]
    rfl
  have hA : dictFold key (mergeByKey key le ex buf) [] =
      (mergeByKey key le ex buf).map (fun t => (key t, t)) := by
    have h := dictFold_fresh key (mergeByKey key le ex buf) [] hndout
      (fun t _ hmem => absurd hmem (by simp))
    simpa using h
  have hcov : ∀ kv ∈ dictFold key buf [],
      kv.1 ∈ ((mergeByKey key le ex buf).map (fun t => (key t, t))).map Prod.fst := by
    intro kv hkv
    have h1 : kv.1 ∈ (dictFold key buf []).map Prod.fst :=
      List.mem_map_of_mem Prod.fst hkv
    have h3 : kv.1 ∈ (dictUpdate (dictFold key ex [])
        (dictFold key buf [])).map Prod.fst :=
      (dictUpdate_keys_iff (dictFold key buf []) (dictFold key ex []) kv.1).mpr
        (Or.inr h1)
    rw [htagkeys]
    exact hpkeys.mem_iff.mpr h3
  have hB := dictUpdate_override (dictFold key buf [])
    ((mergeByKey key le ex buf).map (fun t => (key t, t)))
    (by rw [htagkeys]; exact hndout) hcov
  have hC : ((mergeByKey key le ex buf).map (fun t => (key t, t))).map
      (fun kv => match (dictFold key buf []).reverse.find?
          (fun kv2 => kv2.1 == kv.1) with
        | some kv2 => (kv.1, kv2.2)
        | none => kv) =
      (mergeByKey key le ex buf).map (fun t => (key t, t)) := by
    rw [List.map_map]
    apply List.map_congr_left
    intro t ht
    simp only [Function.comp_apply]
    cases hf : (dictFold key buf []).reverse.find?
        (fun kv2 => kv2.1 == key t) with
    | none => rfl
    | some kv2 =>
      have h1 : dictLookup (key t) (dictUpdate (dictFold key ex [])
          (dictFold key buf [])) = some kv2.2 := by
        rw [dictLookup_dictUpdate, hf]
        rfl
      have h2 : dictLookup (key t) (dictUpdate (dictFold key ex [])
          (dictFold key buf [])) = some t := by
        rw [← mem_values_iff_lookup key _ hndD htagD t]
        exact hperm.mem_iff.mp ht
      rw [h1] at h2
      injection h2 with h2
      simp [h2]
  have hval : dictValues ((mergeByKey key le ex buf).map
      (fun t => (key t, t))) = mergeByKey key le ex buf := by
    rw [dictValues, List.map_map]
    have : (mergeByKey key le ex buf).map
        (Prod.snd ∘ fun t => (key t, t)) =
        (mergeByKey key le ex buf).map (fun t => t) :=
      List.map_congr_left (fun t _ => rfl)
    rw [this]
    simp
  calc mergeByKey key le (mergeByKey key le ex buf) buf
      = (dictValues (dictUpdate (dictFold key (mergeByKey key le ex buf) [])
          (dictFold key buf []))).insertionSort
          (fun a b => le a b = true) := rfl
    _ = (mergeByKey key le ex buf).insertionSort (fun a b => le a b = true) := by
        rw [hA, hB, hC, hval]
    _ = mergeByKey key le ex buf := List.Sorted.insertionSort_eq hsort

/-- C4.  The topic-index flush merges buffered summaries into the stored
index keyed by `topic_id`: a record is in the merged index exactly when
it is the last record carried for its `topic_id` by the stored list
followed by the buffered batch (so new data overwrites old data of the
same id), the result is sorted by `(board_offset, topic_id)`, and the
specification's concrete scenario holds. -/
theorem topics_index_merge_correct :
    (∀ (existing buffered : List TopicRec) (t : TopicRec),
      (t ∈ mergeTopicIndex existing buffered ↔
        (existing ++ buffered).reverse.find?
          (fun u => u.topic_id == t.topic_id) = some t)) ∧
    (∀ existing buffered : List TopicRec,
      (mergeTopicIndex existing buffered).Pairwise
        (fun a b => topicLE a b = true)) ∧
    mergeTopicIndex
      [{ topic_id := "A", board_offset := 0, subject := "subject A" },
       { topic_id := "B", board_offset := 25, subject := "subject B" }]
      [{ topic_id := "B", board_offset := 25, subject := "subject B updated" },
       { topic_id := "C", board_offset := 50, subject := "subject C" }] =
      [{ topic_id := "A", board_offset := 0, subject := "subject A" },
       { topic_id := "B", board_offset := 25, subject := "subject B updated" },
       { topic_id := "C", board_offset := 50, subject := "subject C" }] := by
  refine ⟨?_, ?_, by decide⟩
  · intro existing buffered t
    exact mergeByKey_mem (fun u => u.topic_id) topicLE existing buffered t
  · intro existing buffered
    exact mergeByKey_sorted (fun u => u.topic_id) topicLE
      topicLE_trans topicLE_total existing buffered

/-- Witness for C4: the buffered update of topic `"B"` replaces the
stored record. -/
theorem topics_index_merge_correct_witness :
    ({ topic_id := "B", board_offset := 25, subject := "new" } : TopicRec) ∈
      mergeTopicIndex
        [{ topic_id := "B", board_offset := 25, subject := "old" }]
        [{ topic_id := "B", board_offset := 25, subject := "new" }] :=
  (topics_index_merge_correct.1
    [{ topic_id := "B", board_offset := 25, subject := "old" }]
    [{ topic_id := "B", board_offset := 25, subject := "new" }]
    { topic_id := "B", board_offset := 25, subject := "new" }).mpr (by decide)

/-- C5.  Each write of the flush is idempotent: re-running it over the
file it just produced, with the same buffered records, reproduces that
file exactly (timestamp fields are outside the model; the specification
excludes them from the comparison). -/
theorem storage_flush_idempotent :
    ∀ (boardId topicId : String) (boardName : Option String)
      (exIdx : Option TopicsIndexFile) (bufT : List TopicRec)
      (exPosts : Option PostFile) (bufP : List PostRec)
      (exInfo : Option BoardInfoFile) (latest : BoardInfoFile),
      flushTopicsIndex boardId boardName
          (some (flushTopicsIndex boardId boardName exIdx bufT)) bufT =
        flushTopicsIndex boardId boardName exIdx bufT ∧
      flushPostsFile boardId topicId
          (some (flushPostsFile boardId topicId exPosts bufP)) bufP =
        flushPostsFile boardId topicId exPosts bufP ∧
      flushBoardInfo (some (flushBoardInfo exInfo latest)) latest =
        flushBoardInfo exInfo latest := by
  intro boardId topicId boardName exIdx bufT exPosts bufP exInfo latest
  refine ⟨?_, ?_, rfl⟩
  · have h : mergeTopicIndex (mergeTopicIndex
        ((exIdx.map (fun f : TopicsIndexFile => f.topics)).getD []) bufT) bufT =
        mergeTopicIndex
          ((exIdx.map (fun f : TopicsIndexFile => f.topics)).getD []) bufT :=
      mergeByKey_idem (fun u : TopicRec => u.topic_id) topicLE topicLE_trans
        topicLE_total _ bufT
    exact congrArg (fun l : List TopicRec =>
      TopicsIndexFile.mk boardId boardName l) h
  · have h : mergePosts (mergePosts
        ((exPosts.map (fun f : PostFile => f.posts)).getD []) bufP) bufP =
        mergePosts
          ((exPosts.map (fun f : PostFile => f.posts)).getD []) bufP :=
      mergeByKey_idem (fun p : PostRec => p.post_id) postLE postLE_trans
        postLE_total _ bufP
    exact congrArg (fun l : List PostRec =>
      PostFile.mk boardId topicId l.length l) h

/-- Witness for C5 at concrete inputs. -/
theorem storage_flush_idempotent_witness :
    flushTopicsIndex "8" (some "Tech Talk")
        (some (flushTopicsIndex "8" (some "Tech Talk") none
          [{ topic_id := "101", board_offset := 0, subject := "s" }]))
        [{ topic_id := "101", board_offset := 0, subject := "s" }] =
      flushTopicsIndex "8" (some "Tech Talk") none
        [{ topic_id := "101", board_offset := 0, subject := "s" }] :=
  (storage_flush_idempotent "8" "101" (some "Tech Talk") none
    [{ topic_id := "101", board_offset := 0, subject := "s" }] none [] none
    { board_id := "8", name := "Tech Talk", description := "",
      posts := none, url := "u" }).1

end DansScrap
